import Mathlib

/-!
# Verification of the topic indexing and validation subsystem

A shallow embedding of the content-indexing subsystem of the cheat-sheet
repository: key generation from titles (`generateTopicKey`), index
construction over a nested category structure (`buildTopicIndex`,
`createCategoryIndex`), the query layer (`getTopic`, `getTopicsByTag`,
`getTopicsByDifficulty`), and the structural validator (`validateTopics`,
`assertValidTopics`).

Strings are modelled as Lean `String` (a list of characters); JavaScript
`toLowerCase` is modelled as ASCII simple case mapping (sufficient here:
every character outside `[a-z0-9\s-]` is removed immediately afterwards);
JavaScript `Map` is modelled as an insertion-ordered association list with
in-place update on `set`, which matches `Map`'s iteration-order semantics.
-/

set_option maxRecDepth 4096

namespace CheatSheet

/-! ## Character classes used by the key generator -/

/-- The JavaScript `\s` character class (also the set removed by
`String.prototype.trim`): tab, LF, VT, FF, CR, space, NBSP, and the
Unicode space separators, line/paragraph separators and BOM. -/
def isJsWs (c : Char) : Bool :=
  c.toNat == 9 || c.toNat == 10 || c.toNat == 11 || c.toNat == 12 ||
  c.toNat == 13 || c.toNat == 32 || c.toNat == 160 || c.toNat == 5760 ||
  (8192 ≤ c.toNat && c.toNat ≤ 8202) || c.toNat == 8232 || c.toNat == 8233 ||
  c.toNat == 8239 || c.toNat == 8287 || c.toNat == 12288 || c.toNat == 65279

/-- A lowercase ASCII letter (97–122) or ASCII digit (48–57): the
characters the slug alphabet keeps besides the hyphen. -/
def isSlugChar (c : Char) : Bool :=
  (97 ≤ c.toNat && c.toNat ≤ 122) || (48 ≤ c.toNat && c.toNat ≤ 57)

/-- `String.prototype.toLowerCase`, restricted to ASCII simple case
mapping: `A`–`Z` (65–90) maps to `a`–`z`, everything else is unchanged. -/
def toLowerAscii (c : Char) : Char :=
  if 65 ≤ c.toNat && c.toNat ≤ 90 then Char.ofNat (c.toNat + 32) else c

/-- The character class kept by `.replace(/[^a-z0-9\s-]/g, '')`. -/
def keepChar (c : Char) : Bool :=
  isSlugChar c || isJsWs c || c == '-'

/-! ## Regex replacement steps of the key generator -/

/-- Replace every maximal run of characters satisfying `p` by the single
character `rep`; `inRun` records whether the previous character belonged
to a run. `collapseRuns p rep` embeds `.replace(/p+/g, rep)`. -/
def collapseRunsAux (p : Char → Bool) (rep : Char) : Bool → List Char → List Char
  | _, [] => []
  | inRun, c :: cs =>
    if p c then
      if inRun then collapseRunsAux p rep true cs
      else rep :: collapseRunsAux p rep true cs
    else c :: collapseRunsAux p rep false cs

/-- `.replace(/p+/g, rep)`: each maximal `p`-run becomes one `rep`. -/
def collapseRuns (p : Char → Bool) (rep : Char) (l : List Char) : List Char :=
  collapseRunsAux p rep false l

/-- Remove one leading hyphen if present (the `^-` alternative of
`.replace(/^-|-$/g, '')`). -/
def stripLeadHyphen : List Char → List Char
  | [] => []
  | c :: rest => if c = '-' then rest else c :: rest

/-- Remove one trailing hyphen if present (the `-$` alternative of
`.replace(/^-|-$/g, '')`). -/
def stripTrailHyphen : List Char → List Char
  | [] => []
  | [c] => if c = '-' then [] else [c]
  | c :: rest => c :: stripTrailHyphen rest

/-- `.replace(/^-|-$/g, '')`: the anchored alternation removes at most one
leading and one trailing hyphen. -/
def stripEdgeHyphens (l : List Char) : List Char :=
  stripTrailHyphen (stripLeadHyphen l)

/-- `String.prototype.trim`: drop JavaScript whitespace from both ends. -/
def jsTrimL (l : List Char) : List Char :=
  ((l.dropWhile isJsWs).reverse.dropWhile isJsWs).reverse

/-- `String.prototype.trim` on `String`. -/
def jsTrim (s : String) : String :=
  ⟨jsTrimL s.data⟩

/-! ## The key generator (`generateTopicKey` in `utils/topicIndex.ts`) -/

/-- The `generateTopicKey` pipeline on character lists:
lowercase, remove characters outside `[a-z0-9\s-]`, whitespace runs to a
hyphen, collapse hyphen runs, trim edge hyphens, trim whitespace. -/
def generateTopicKeyL (title : List Char) : List Char :=
  jsTrimL
    (stripEdgeHyphens
      (collapseRuns (fun c => c == '-') '-'
        (collapseRuns isJsWs '-'
          ((title.map toLowerAscii).filter keepChar))))

/-- `generateTopicKey(title)`: generate a URL-safe key from a topic title. -/
def generateTopicKey (title : String) : String :=
  ⟨generateTopicKeyL title.data⟩

/-! ## The slug format `^[a-z0-9]+(-[a-z0-9]+)*$` as an automaton -/

/-- Accepts `([a-z0-9] | -[a-z0-9])*`: the part of the slug pattern that
may follow the first character. -/
def slugBody : List Char → Bool
  | [] => true
  | '-' :: c :: rest => isSlugChar c && slugBody rest
  | c :: rest => isSlugChar c && slugBody rest

/-- Decides the regular expression `^[a-z0-9]+(-[a-z0-9]+)*$`: nonempty,
lowercase alphanumerics and single separating hyphens, no leading or
trailing hyphen, no repeated hyphen. -/
def slugPatternL : List Char → Bool
  | [] => false
  | c :: rest => isSlugChar c && slugBody rest

/-- The slug pattern on `String`. -/
def slugPattern (s : String) : Bool :=
  slugPatternL s.data

/-! ## Data model (`types.ts`, spec §3) -/

/-- Difficulty levels of a topic. -/
inductive Difficulty where
  | beginner
  | intermediate
  | advanced
deriving DecidableEq, Repr

/-- `TopicMetadata`: difficulty, tags and prerequisite keys. -/
structure TopicMetadata where
  difficulty : Difficulty
  tags : List String
  prerequisites : List String
deriving DecidableEq, Repr

/-- A `Topic` record: derived key, title, opaque content, metadata. -/
structure Topic where
  key : String
  title : String
  content : String
  metadata : TopicMetadata
deriving DecidableEq, Repr

/-- A `TopicCategory`: a titled, ordered list of topics. -/
structure TopicCategory where
  title : String
  topics : List Topic
deriving DecidableEq, Repr

/-- `TopicIndex = Map<string, Topic>`, modelled as an insertion-ordered
association list whose keys are pairwise distinct. -/
abbrev TopicIndex := List (String × Topic)

/-- `Map.prototype.has`. -/
def mapHas (m : TopicIndex) (k : String) : Bool :=
  (m : List (String × Topic)).any (fun p => p.1 == k)

/-- `Map.prototype.set`: update in place when the key is present
(keeping its original insertion position), append otherwise. -/
def mapSet (m : TopicIndex) (k : String) (v : Topic) : TopicIndex :=
  if mapHas m k then
    (m : List (String × Topic)).map (fun p => if p.1 == k then (k, v) else p)
  else
    (m : List (String × Topic)) ++ [(k, v)]

/-- `Map.prototype.get`. -/
def mapGet (m : TopicIndex) (k : String) : Option Topic :=
  ((m : List (String × Topic)).find? (fun p => p.1 == k)).map (·.2)

/-- `Map.prototype.values`, in insertion order. -/
def mapValues (m : TopicIndex) : List Topic :=
  (m : List (String × Topic)).map (·.2)

/-- The empty `Map`. -/
def mapEmpty : TopicIndex := ([] : List (String × Topic))

/-! ## Index builder (`buildTopicIndex`, `createCategoryIndex`) -/

/-- `buildTopicIndex(categories)`: iterate categories in order, topics in
order, inserting `(topic.key, topic)`; a duplicate key only triggers a
console warning, the `set` still overwrites. -/
def buildTopicIndex (categories : List TopicCategory) : TopicIndex :=
  categories.foldl
    (fun index category =>
      category.topics.foldl (fun index topic => mapSet index topic.key topic) index)
    mapEmpty

/-- `CategoryIndex`: the ordered hierarchy plus the flat lookup map. -/
structure CategoryIndex where
  categories : List TopicCategory
  topicIndex : TopicIndex
deriving DecidableEq, Repr

/-- `createCategoryIndex(categories)`. -/
def createCategoryIndex (categories : List TopicCategory) : CategoryIndex :=
  { categories := categories, topicIndex := buildTopicIndex categories }

/-! ## Query layer -/

/-- `getTopic(index, key)`: O(1) lookup by key. -/
def getTopic (index : TopicIndex) (key : String) : Option Topic :=
  mapGet index key

/-- `getAllTopicKeys(index)`. -/
def getAllTopicKeys (index : TopicIndex) : List String :=
  (index : List (String × Topic)).map (·.1)

/-- `getTopicsByTag(index, tag)`: the topics of the index, in value
iteration order, whose tag list contains `tag`. -/
def getTopicsByTag (index : TopicIndex) (tag : String) : List Topic :=
  (mapValues index).filter (fun topic => topic.metadata.tags.contains tag)

/-- `getTopicsByDifficulty(index, difficulty)`. -/
def getTopicsByDifficulty (index : TopicIndex) (difficulty : Difficulty) : List Topic :=
  (mapValues index).filter (fun topic => topic.metadata.difficulty == difficulty)

/-! ## Validator (`validateTopics`, `assertValidTopics` in `utils/topicValidation.ts`) -/

/-- The four diagnostic kinds of `ValidationError.type`. -/
inductive ErrorType where
  | duplicate_key
  | empty_content
  | missing_title
  | invalid_prerequisite
deriving DecidableEq, Repr

/-- A `ValidationError` record: kind, message, optional topic key. -/
structure ValidationError where
  type : ErrorType
  message : String
  topic : Option String
deriving DecidableEq, Repr

/-- The `duplicate_key` diagnostic pushed for a repeated key. -/
def duplicateKeyError (t : Topic) : ValidationError :=
  ⟨.duplicate_key, "Duplicate topic key: \"" ++ t.key ++ "\"", some t.key⟩

/-- The `missing_title` diagnostic. -/
def missingTitleError (t : Topic) : ValidationError :=
  ⟨.missing_title, "Topic with key \"" ++ t.key ++ "\" has no title", some t.key⟩

/-- The `empty_content` diagnostic. -/
def emptyContentError (t : Topic) : ValidationError :=
  ⟨.empty_content, "Topic \"" ++ t.title ++ "\" has very short or empty content", some t.key⟩

/-- The `invalid_prerequisite` diagnostic for one prerequisite entry. -/
def invalidPrerequisiteError (t : Topic) (prereq : String) : ValidationError :=
  ⟨.invalid_prerequisite,
    "Topic \"" ++ t.title ++ "\" has invalid prerequisite: \"" ++ prereq ++ "\"",
    some t.key⟩

/-- The guard `!topic.title || topic.title.trim().length === 0`
(`""` is the only falsy string once fields are total). -/
def titleMissing (t : Topic) : Bool :=
  t.title == "" || (jsTrim t.title).length == 0

/-- The guard `!topic.content || topic.content.trim().length < 50`. -/
def contentThin (t : Topic) : Bool :=
  t.content == "" || decide ((jsTrim t.content).length < 50)

/-- `Set.prototype.add` on the seen-keys set (membership-faithful model:
append when absent, no-op when present). -/
def seenAdd (seen : List String) (k : String) : List String :=
  if seen.contains k then seen else seen ++ [k]

/-- The diagnostics pushed for one topic, in source order: duplicate key,
missing title, thin content, then one per unresolved prerequisite
(`metadata.prerequisites`, checked against `index.topicIndex`). -/
def topicErrors (index : CategoryIndex) (seen : List String) (t : Topic) :
    List ValidationError :=
  (if seen.contains t.key then [duplicateKeyError t] else []) ++
  (if titleMissing t then [missingTitleError t] else []) ++
  (if contentThin t then [emptyContentError t] else []) ++
  (t.metadata.prerequisites.filter (fun p => !(mapHas index.topicIndex p))).map
    (invalidPrerequisiteError t)

/-- One iteration of the validator's inner loop: append this topic's
diagnostics and record its key as seen. -/
def validateStep (index : CategoryIndex)
    (st : List ValidationError × List String) (t : Topic) :
    List ValidationError × List String :=
  (st.1 ++ topicErrors index st.2 t, seenAdd st.2 t.key)

/-- `validateTopics(index)`: scan `index.categories` (all authored topics,
shadowed ones included), accumulating every diagnostic. -/
def validateTopics (index : CategoryIndex) : List ValidationError :=
  (index.categories.foldl
      (fun st category => category.topics.foldl (validateStep index) st)
      (([], []) : List ValidationError × List String)).1

/-- `assertValidTopics(index)`: in dev mode run validation and log (via
`console.error` / `console.warn`, modelled as no-ops); the code
deliberately never throws, so every branch is `Except.ok`. -/
def assertValidTopics (dev : Bool) (index : CategoryIndex) : Except String Unit :=
  if dev then
    let errors := validateTopics index
    if errors.length > 0 then
      Except.ok ()
    else
      Except.ok ()
  else
    Except.ok ()

/-! ## Reasoning helpers: the validator as a linear scan -/

/-- All topics of a category list, in the nested loops' visiting order. -/
def concatTopics (categories : List TopicCategory) : List Topic :=
  (categories.map (·.topics)).flatten

/-- The seen-keys set after scanning a topic list. -/
def scanSeen (seen : List String) (ts : List Topic) : List String :=
  ts.foldl (fun s t => seenAdd s t.key) seen

/-- The validator's output as a structural recursion over the flattened
topic list, threading the seen-keys set. -/
def scanErrors (index : CategoryIndex) : List String → List Topic → List ValidationError
  | _, [] => []
  | seen, t :: ts => topicErrors index seen t ++ scanErrors index (seenAdd seen t.key) ts

/-- The occurrences the duplicate check is meant to flag: a topic is kept
exactly when some strictly earlier topic of the scan (the prefix `pre`)
has the same key. -/
def subsequentDuplicates (pre : List Topic) : List Topic → List Topic
  | [] => []
  | t :: ts =>
    (if pre.any (fun u => u.key == t.key) then [t] else []) ++
    subsequentDuplicates (pre ++ [t]) ts

/-! ## Concrete fixtures used by the end-to-end scenario and witnesses -/

/-- Metadata with all defaults (`difficulty: intermediate`, no tags,
no prerequisites). -/
def defaultMetadata : TopicMetadata := ⟨.intermediate, [], []⟩

/-- First scenario topic: title `"X"`, content of fewer than 50
characters. -/
def topicShort : Topic := ⟨"x", "X", "short", defaultMetadata⟩

/-- Second scenario topic: title `"X"`, content of 60 or more
characters (83 characters here). -/
def topicLong : Topic :=
  ⟨"x", "X",
    "This content string is certainly long enough to pass the fifty character threshold.",
    defaultMetadata⟩

/-- The end-to-end scenario input: one category `"A"` holding the two
`"X"` topics. -/
def scenarioCategories : List TopicCategory := [⟨"A", [topicShort, topicLong]⟩]

/-- The index built for the end-to-end scenario. -/
def scenarioIndex : CategoryIndex := createCategoryIndex scenarioCategories

/-- A topic with a 49-character content (boundary case, flagged). -/
def topic49 : Topic :=
  ⟨"c49", "C49", "exactly-forty-nine-characters-of-content-here-yes", defaultMetadata⟩

/-- A topic whose content is exactly 50 non-whitespace characters
(boundary case, not flagged). -/
def topic50 : Topic :=
  ⟨"c50", "C50", "exactly-fifty-characters-of-solid-content-here-yes", defaultMetadata⟩

/-- A topic that lists its own key among its prerequisites. -/
def topicSelf : Topic :=
  ⟨"self", "Self",
    "This content string is certainly long enough to pass the fifty character threshold.",
    ⟨.beginner, ["hooks"], ["self"]⟩⟩

/-! ## Lemmas: character classes -/

lemma isSlugChar_ne_hyphen {c : Char} (h : isSlugChar c = true) : c ≠ '-' := by
  intro h'
  subst h'
  simp [isSlugChar] at h

lemma isSlugChar_not_ws {c : Char} (h : isSlugChar c = true) : isJsWs c = false := by
  simp only [isSlugChar, Bool.or_eq_true, Bool.and_eq_true, decide_eq_true_eq] at h
  simp only [isJsWs, Bool.or_eq_false_iff, Bool.and_eq_false_iff, beq_eq_false_iff_ne,
    ne_eq, decide_eq_false_iff_not, not_le]
  omega

lemma hyphen_not_ws : isJsWs '-' = false := by decide

lemma toLowerAscii_slug {c : Char} (h : isSlugChar c = true) : toLowerAscii c = c := by
  simp only [isSlugChar, Bool.or_eq_true, Bool.and_eq_true, decide_eq_true_eq] at h
  unfold toLowerAscii
  rw [if_neg]
  simp only [Bool.and_eq_true, decide_eq_true_eq, not_and, not_le]
  omega

lemma toLowerAscii_hyphen : toLowerAscii '-' = '-' := by decide

lemma keepChar_slug {c : Char} (h : isSlugChar c = true) : keepChar c = true := by
  simp [keepChar, h]

lemma keepChar_hyphen : keepChar '-' = true := by decide

/-! ## Lemmas: `collapseRuns` equations -/

lemma collapseRunsAux_nil {p : Char → Bool} {rep : Char} {inRun : Bool} :
    collapseRunsAux p rep inRun [] = [] := rfl

lemma collapseRunsAux_cons_run {p : Char → Bool} {rep c : Char} {l : List Char}
    (hp : p c = true) :
    collapseRunsAux p rep true (c :: l) = collapseRunsAux p rep true l := by
  conv_lhs => unfold collapseRunsAux
  rw [hp]
  simp

lemma collapseRunsAux_cons_start {p : Char → Bool} {rep c : Char} {l : List Char}
    (hp : p c = true) :
    collapseRunsAux p rep false (c :: l) = rep :: collapseRunsAux p rep true l := by
  conv_lhs => unfold collapseRunsAux
  rw [hp]
  simp

lemma collapseRunsAux_cons_skip {p : Char → Bool} {rep c : Char} {l : List Char}
    {inRun : Bool} (hp : p c = false) :
    collapseRunsAux p rep inRun (c :: l) = c :: collapseRunsAux p rep false l := by
  conv_lhs => unfold collapseRunsAux
  rw [hp]
  simp

/-! ## Lemmas: `collapseRuns` properties -/

lemma mem_collapseRunsAux {p : Char → Bool} {rep c : Char} :
    ∀ (l : List Char) (inRun : Bool), c ∈ collapseRunsAux p rep inRun l →
      c = rep ∨ (c ∈ l ∧ p c = false) := by
  intro l
  induction l with
  | nil =>
    intro inRun h
    rw [collapseRunsAux_nil] at h
    cases h
  | cons a as ih =>
    intro inRun h
    by_cases hp : p a = true
    · cases inRun with
      | true =>
        rw [collapseRunsAux_cons_run hp] at h
        rcases ih true h with h' | h'
        · exact Or.inl h'
        · exact Or.inr ⟨List.mem_cons_of_mem a h'.1, h'.2⟩
      | false =>
        rw [collapseRunsAux_cons_start hp] at h
        rcases List.mem_cons.mp h with h' | h'
        · exact Or.inl h'
        · rcases ih true h' with h'' | h''
          · exact Or.inl h''
          · exact Or.inr ⟨List.mem_cons_of_mem a h''.1, h''.2⟩
    · rw [collapseRunsAux_cons_skip (Bool.not_eq_true _ ▸ hp)] at h
      rcases List.mem_cons.mp h with h' | h'
      · subst h'
        exact Or.inr ⟨List.mem_cons_self c as, Bool.not_eq_true _ ▸ hp⟩
      · rcases ih false h' with h'' | h''
        · exact Or.inl h''
        · exact Or.inr ⟨List.mem_cons_of_mem a h''.1, h''.2⟩

lemma head?_collapseRunsAux_true {p : Char → Bool} {rep c : Char} :
    ∀ (l : List Char), (collapseRunsAux p rep true l).head? = some c → p c = false := by
  intro l
  induction l with
  | nil =>
    intro h
    rw [collapseRunsAux_nil] at h
    cases h
  | cons a as ih =>
    intro h
    by_cases hp : p a = true
    · rw [collapseRunsAux_cons_run hp] at h
      exact ih h
    · rw [collapseRunsAux_cons_skip (Bool.not_eq_true _ ▸ hp), List.head?_cons] at h
      cases h
      exact Bool.not_eq_true _ ▸ hp

lemma chain'_collapseRunsAux {p : Char → Bool} {rep : Char} :
    ∀ (l : List Char) (inRun : Bool),
      List.Chain' (fun a b => p a = false ∨ p b = false)
        (collapseRunsAux p rep inRun l) := by
  intro l
  induction l with
  | nil =>
    intro inRun
    rw [collapseRunsAux_nil]
    exact List.chain'_nil
  | cons a as ih =>
    intro inRun
    by_cases hp : p a = true
    · cases inRun with
      | true =>
        rw [collapseRunsAux_cons_run hp]
        exact ih true
      | false =>
        rw [collapseRunsAux_cons_start hp]
        rw [List.chain'_cons']
        refine ⟨?_, ih true⟩
        intro y hy
        exact Or.inr (head?_collapseRunsAux_true as hy)
    · rw [collapseRunsAux_cons_skip (Bool.not_eq_true _ ▸ hp)]
      rw [List.chain'_cons']
      refine ⟨?_, ih false⟩
      intro y _
      exact Or.inl (Bool.not_eq_true _ ▸ hp)

lemma collapseRunsAux_of_none {p : Char → Bool} {rep : Char} :
    ∀ (l : List Char), (∀ c ∈ l, p c = false) → ∀ inRun,
      collapseRunsAux p rep inRun l = l := by
  intro l
  induction l with
  | nil => intro _ inRun; rfl
  | cons a as ih =>
    intro h inRun
    rw [collapseRunsAux_cons_skip (h a (List.mem_cons_self a as))]
    rw [ih (fun c hc => h c (List.mem_cons_of_mem a hc)) false]

lemma collapseRunsAux_hyphen_id :
    ∀ (l : List Char) (inRun : Bool),
      List.Chain' (fun a b => a ≠ '-' ∨ b ≠ '-') l →
      (inRun = true → ∀ c ∈ l.head?, c ≠ '-') →
      collapseRunsAux (fun c => c == '-') '-' inRun l = l := by
  intro l
  induction l with
  | nil => intro inRun _ _; rfl
  | cons a as ih =>
    intro inRun hchain hhead
    by_cases ha : a = '-'
    · subst ha
      cases inRun with
      | true => exact absurd rfl (hhead rfl '-' (by simp))
      | false =>
        rw [collapseRunsAux_cons_start (by simp)]
        rw [ih true hchain.tail]
        intro _ c hc
        rcases as with _ | ⟨b, bs⟩
        · simp at hc
        · simp only [List.head?_cons, Option.mem_def, Option.some_inj] at hc
          subst hc
          rcases (List.chain'_cons.mp hchain).1 with h | h
          · exact absurd rfl h
          · exact h
    · rw [collapseRunsAux_cons_skip (by simpa using ha)]
      rw [ih false hchain.tail (by intro h; cases h)]

/-! ## Lemmas: edge-hyphen stripping and whitespace trimming -/

lemma stripTrailHyphen_nil : stripTrailHyphen [] = [] := rfl

lemma stripTrailHyphen_single (c : Char) :
    stripTrailHyphen [c] = if c = '-' then [] else [c] := rfl

lemma stripTrailHyphen_cons_cons (a b : Char) (l : List Char) :
    stripTrailHyphen (a :: b :: l) = a :: stripTrailHyphen (b :: l) := rfl

lemma mem_stripTrailHyphen {c : Char} :
    ∀ (l : List Char), c ∈ stripTrailHyphen l → c ∈ l := by
  intro l
  induction l with
  | nil => intro h; cases h
  | cons a as ih =>
    intro h
    rcases as with _ | ⟨b, bs⟩
    · rw [stripTrailHyphen_single] at h
      split at h
      · cases h
      · exact h
    · rw [stripTrailHyphen_cons_cons] at h
      rcases List.mem_cons.mp h with h' | h'
      · exact h' ▸ List.mem_cons_self a (b :: bs)
      · exact List.mem_cons_of_mem a (ih h')

lemma head?_stripTrailHyphen :
    ∀ (l : List Char), (stripTrailHyphen l).head? = none ∨
      (stripTrailHyphen l).head? = l.head? := by
  intro l
  rcases l with _ | ⟨a, _ | ⟨b, bs⟩⟩
  · exact Or.inl rfl
  · rw [stripTrailHyphen_single]
    split
    · exact Or.inl rfl
    · exact Or.inr rfl
  · rw [stripTrailHyphen_cons_cons]
    exact Or.inr rfl

lemma chain'_stripTrailHyphen {R : Char → Char → Prop} :
    ∀ (l : List Char), List.Chain' R l → List.Chain' R (stripTrailHyphen l) := by
  intro l
  induction l with
  | nil => intro _; exact List.chain'_nil
  | cons a as ih =>
    intro h
    rcases as with _ | ⟨b, bs⟩
    · rw [stripTrailHyphen_single]
      split
      · exact List.chain'_nil
      · exact List.chain'_singleton a
    · rw [stripTrailHyphen_cons_cons]
      rw [List.chain'_cons']
      refine ⟨?_, ih h.tail⟩
      intro y hy
      rcases head?_stripTrailHyphen (b :: bs) with h0 | h0
      · rw [h0] at hy; cases hy
      · rw [h0] at hy
        simp only [List.head?_cons, Option.mem_def, Option.some_inj] at hy
        subst hy
        exact (List.chain'_cons.mp h).1

lemma getLast?_stripTrailHyphen :
    ∀ (l : List Char), List.Chain' (fun a b => a ≠ '-' ∨ b ≠ '-') l →
      ∀ c ∈ (stripTrailHyphen l).getLast?, c ≠ '-' := by
  intro l
  induction l with
  | nil => intro _ c hc; cases hc
  | cons a as ih =>
    intro hchain c hc
    rcases as with _ | ⟨b, bs⟩
    · rw [stripTrailHyphen_single] at hc
      split at hc
      · cases hc
      · next ha =>
        simp only [List.getLast?_singleton, Option.mem_def, Option.some_inj] at hc
        subst hc
        exact ha
    · rw [stripTrailHyphen_cons_cons] at hc
      rcases hb : stripTrailHyphen (b :: bs) with _ | ⟨d, ds⟩
      · rw [hb] at hc
        simp only [List.getLast?_singleton, Option.mem_def, Option.some_inj] at hc
        subst hc
        -- `stripTrailHyphen (b :: bs) = []` forces `b = '-'` and `bs = []`
        rcases bs with _ | ⟨e, es⟩
        · rw [stripTrailHyphen_single] at hb
          split at hb
          · next hb' =>
            subst hb'
            rcases (List.chain'_cons.mp hchain).1 with h | h
            · exact h
            · exact absurd rfl h
          · cases hb
        · rw [stripTrailHyphen_cons_cons] at hb
          cases hb
      · rw [hb] at hc
        rw [List.getLast?_cons_cons] at hc
        have := ih hchain.tail c
        rw [hb] at this
        exact this hc

lemma stripLeadHyphen_of_head {l : List Char}
    (h : ∀ c ∈ l.head?, c ≠ '-') : stripLeadHyphen l = l := by
  rcases l with _ | ⟨a, as⟩
  · rfl
  · have ha : a ≠ '-' := h a (by simp)
    simp only [stripLeadHyphen]
    rw [if_neg ha]

lemma stripTrailHyphen_of_getLast :
    ∀ (l : List Char), (∀ c ∈ l.getLast?, c ≠ '-') → stripTrailHyphen l = l := by
  intro l
  induction l with
  | nil => intro _; rfl
  | cons a as ih =>
    intro h
    rcases as with _ | ⟨b, bs⟩
    · have ha : a ≠ '-' := h a (by simp)
      rw [stripTrailHyphen_single, if_neg ha]
    · rw [stripTrailHyphen_cons_cons]
      rw [ih]
      intro c hc
      apply h
      rwa [List.getLast?_cons_cons]

lemma dropWhile_of_none {p : Char → Bool} {l : List Char}
    (h : ∀ c ∈ l, p c = false) : l.dropWhile p = l := by
  rcases l with _ | ⟨a, as⟩
  · rfl
  · rw [List.dropWhile_cons, if_neg]
    simp [h a (List.mem_cons_self a as)]

lemma jsTrimL_of_none {l : List Char}
    (h : ∀ c ∈ l, isJsWs c = false) : jsTrimL l = l := by
  unfold jsTrimL
  rw [dropWhile_of_none h, dropWhile_of_none, List.reverse_reverse]
  intro c hc
  exact h c (List.mem_reverse.mp hc)

lemma mem_stripLeadHyphen {c : Char} :
    ∀ (l : List Char), c ∈ stripLeadHyphen l → c ∈ l := by
  intro l h
  rcases l with _ | ⟨a, as⟩
  · cases h
  · simp only [stripLeadHyphen] at h
    split at h
    · exact List.mem_cons_of_mem a h
    · exact h

lemma map_eq_self_of {f : Char → Char} :
    ∀ (l : List Char), (∀ c ∈ l, f c = c) → l.map f = l := by
  intro l
  induction l with
  | nil => intro _; rfl
  | cons a as ih =>
    intro h
    rw [List.map_cons, h a (List.mem_cons_self a as),
      ih (fun c hc => h c (List.mem_cons_of_mem a hc))]

/-! ## Lemmas: the slug-format automaton -/

lemma slugBody_of :
    ∀ (l : List Char), (∀ c ∈ l, isSlugChar c = true ∨ c = '-') →
      List.Chain' (fun a b => a ≠ '-' ∨ b ≠ '-') l →
      (∀ c ∈ l.getLast?, c ≠ '-') → slugBody l = true := by
  intro l
  induction l using slugBody.induct with
  | case1 => intro _ _ _; rfl
  | case2 c rest ih =>
    intro hmem hchain hlast
    rw [slugBody.eq_2, Bool.and_eq_true]
    have hc : c ≠ '-' := by
      rcases (List.chain'_cons.mp hchain).1 with h | h
      · exact absurd rfl h
      · exact h
    constructor
    · rcases hmem c (by simp) with h | h
      · exact h
      · exact absurd h hc
    · refine ih ?_ ?_ ?_
      · intro x hx
        exact hmem x (List.mem_cons_of_mem _ (List.mem_cons_of_mem _ hx))
      · exact hchain.tail.tail
      · intro x hx
        rcases rest with _ | ⟨d, ds⟩
        · cases hx
        · apply hlast
          rwa [List.getLast?_cons_cons, List.getLast?_cons_cons]
  | case3 c rest hne ih =>
    intro hmem hchain hlast
    rw [slugBody.eq_3 c rest hne, Bool.and_eq_true]
    have hc : c ≠ '-' := by
      intro hc'
      subst hc'
      rcases rest with _ | ⟨d, ds⟩
      · exact hlast '-' (by simp) rfl
      · exact hne d ds rfl rfl
    constructor
    · rcases hmem c (by simp) with h | h
      · exact h
      · exact absurd h hc
    · refine ih ?_ ?_ ?_
      · intro x hx
        exact hmem x (List.mem_cons_of_mem _ hx)
      · exact hchain.tail
      · intro x hx
        rcases rest with _ | ⟨d, ds⟩
        · cases hx
        · apply hlast
          rwa [List.getLast?_cons_cons]

lemma slugBody_props :
    ∀ (l : List Char), slugBody l = true →
      (∀ c ∈ l, isSlugChar c = true ∨ c = '-') ∧
      List.Chain' (fun a b => a ≠ '-' ∨ b ≠ '-') l ∧
      (∀ c ∈ l.getLast?, c ≠ '-') := by
  intro l
  induction l using slugBody.induct with
  | case1 =>
    intro _
    refine ⟨by simp, List.chain'_nil, by simp⟩
  | case2 c rest ih =>
    intro h
    rw [slugBody.eq_2, Bool.and_eq_true] at h
    obtain ⟨hmem, hchain, hlast⟩ := ih h.2
    have hc : c ≠ '-' := isSlugChar_ne_hyphen h.1
    refine ⟨?_, ?_, ?_⟩
    · intro x hx
      rcases List.mem_cons.mp hx with h' | h'
      · exact Or.inr h'
      · rcases List.mem_cons.mp h' with h'' | h''
        · exact Or.inl (h'' ▸ h.1)
        · exact hmem x h''
    · rw [List.chain'_cons]
      refine ⟨Or.inr hc, ?_⟩
      rw [List.chain'_cons']
      exact ⟨fun y _ => Or.inl hc, hchain⟩
    · intro x hx
      rcases rest with _ | ⟨d, ds⟩
      · simp only [List.getLast?_cons_cons, List.getLast?_singleton,
          Option.mem_def, Option.some_inj] at hx
        subst hx
        exact hc
      · rw [List.getLast?_cons_cons, List.getLast?_cons_cons] at hx
        exact hlast x hx
  | case3 c rest hne ih =>
    intro h
    rw [slugBody.eq_3 c rest hne, Bool.and_eq_true] at h
    obtain ⟨hmem, hchain, hlast⟩ := ih h.2
    have hc : c ≠ '-' := isSlugChar_ne_hyphen h.1
    refine ⟨?_, ?_, ?_⟩
    · intro x hx
      rcases List.mem_cons.mp hx with h' | h'
      · exact Or.inl (h' ▸ h.1)
      · exact hmem x h'
    · rw [List.chain'_cons']
      exact ⟨fun y _ => Or.inl hc, hchain⟩
    · intro x hx
      rcases rest with _ | ⟨d, ds⟩
      · simp only [List.getLast?_singleton, Option.mem_def, Option.some_inj] at hx
        subst hx
        exact hc
      · rw [List.getLast?_cons_cons] at hx
        exact hlast x hx

lemma slugPatternL_of {l : List Char}
    (hne : l ≠ [])
    (hmem : ∀ c ∈ l, isSlugChar c = true ∨ c = '-')
    (hchain : List.Chain' (fun a b => a ≠ '-' ∨ b ≠ '-') l)
    (hhead : ∀ c ∈ l.head?, c ≠ '-')
    (hlast : ∀ c ∈ l.getLast?, c ≠ '-') :
    slugPatternL l = true := by
  rcases l with _ | ⟨c, rest⟩
  · exact absurd rfl hne
  · have hc : c ≠ '-' := hhead c (by simp)
    show (isSlugChar c && slugBody rest) = true
    rw [Bool.and_eq_true]
    constructor
    · rcases hmem c (by simp) with h | h
      · exact h
      · exact absurd h hc
    · refine slugBody_of rest ?_ hchain.tail ?_
      · intro x hx
        exact hmem x (List.mem_cons_of_mem _ hx)
      · intro x hx
        rcases rest with _ | ⟨d, ds⟩
        · cases hx
        · apply hlast
          rwa [List.getLast?_cons_cons]

lemma slugPatternL_props {l : List Char} (h : slugPatternL l = true) :
    (∀ c ∈ l, isSlugChar c = true ∨ c = '-') ∧
    List.Chain' (fun a b => a ≠ '-' ∨ b ≠ '-') l ∧
    (∀ c ∈ l.head?, c ≠ '-') ∧
    (∀ c ∈ l.getLast?, c ≠ '-') := by
  rcases l with _ | ⟨c, rest⟩
  · cases h
  · have h' : (isSlugChar c && slugBody rest) = true := h
    rw [Bool.and_eq_true] at h'
    obtain ⟨hmem, hchain, hlast⟩ := slugBody_props rest h'.2
    have hc : c ≠ '-' := isSlugChar_ne_hyphen h'.1
    refine ⟨?_, ?_, ?_, ?_⟩
    · intro x hx
      rcases List.mem_cons.mp hx with h'' | h''
      · exact Or.inl (h'' ▸ h'.1)
      · exact hmem x h''
    · rw [List.chain'_cons']
      exact ⟨fun y _ => Or.inl hc, hchain⟩
    · intro x hx
      simp only [List.head?_cons, Option.mem_def, Option.some_inj] at hx
      subst hx
      exact hc
    · intro x hx
      rcases rest with _ | ⟨d, ds⟩
      · simp only [List.getLast?_singleton, Option.mem_def, Option.some_inj] at hx
        subst hx
        exact hc
      · rw [List.getLast?_cons_cons] at hx
        exact hlast x hx

/-! ## The key generator always produces a canonical slug (or empty) -/

lemma generateTopicKeyL_canonical (l : List Char) :
    slugPatternL (generateTopicKeyL l) = true ∨ generateTopicKeyL l = [] := by
  unfold generateTopicKeyL stripEdgeHyphens collapseRuns
  -- stage 2: the filtered, lowercased characters
  set f := (l.map toLowerAscii).filter keepChar with hf
  -- stage 3: whitespace runs replaced by hyphens
  set s3 := collapseRunsAux isJsWs '-' false f with hs3
  have m3 : ∀ c ∈ s3, isSlugChar c = true ∨ c = '-' := by
    intro c hc
    rcases mem_collapseRunsAux f false hc with h | h
    · exact Or.inr h
    · have := (List.mem_filter.mp h.1).2
      simp only [keepChar, Bool.or_eq_true] at this
      rcases this with (h' | h') | h'
      · exact Or.inl h'
      · rw [h'] at h
        cases h.2
      · exact Or.inr (by simpa using h')
  -- stage 4: hyphen runs collapsed
  set s4 := collapseRunsAux (fun c => c == '-') '-' false s3 with hs4
  have m4 : ∀ c ∈ s4, isSlugChar c = true ∨ c = '-' := by
    intro c hc
    rcases mem_collapseRunsAux s3 false hc with h | h
    · exact Or.inr h
    · exact m3 c h.1
  have ch4 : List.Chain' (fun a b => a ≠ '-' ∨ b ≠ '-') s4 := by
    refine (chain'_collapseRunsAux s3 false).imp ?_
    intro a b h
    rcases h with h | h
    · exact Or.inl (by simpa using h)
    · exact Or.inr (by simpa using h)
  -- stage 5: edge hyphens stripped
  have hdL : ∀ c ∈ (stripLeadHyphen s4).head?, c ≠ '-' := by
    rcases hs : s4 with _ | ⟨a, as⟩
    · intro c hc; cases hc
    · by_cases ha : a = '-'
      · subst ha
        simp only [stripLeadHyphen, if_pos rfl]
        intro c hc
        have := (List.chain'_cons'.mp (hs ▸ ch4)).1 c hc
        rcases this with h | h
        · exact absurd rfl h
        · exact h
      · simp only [stripLeadHyphen, if_neg ha]
        intro c hc
        simp only [List.head?_cons, Option.mem_def, Option.some_inj] at hc
        subst hc
        exact ha
  have chL : List.Chain' (fun a b => a ≠ '-' ∨ b ≠ '-') (stripLeadHyphen s4) := by
    rcases s4 with _ | ⟨a, as⟩
    · exact List.chain'_nil
    · simp only [stripLeadHyphen]
      split
      · exact ch4.tail
      · exact ch4
  have memL : ∀ c ∈ stripLeadHyphen s4, isSlugChar c = true ∨ c = '-' := by
    intro c hc
    exact m4 c (mem_stripLeadHyphen s4 hc)
  set s5 := stripTrailHyphen (stripLeadHyphen s4) with hs5
  have m5 : ∀ c ∈ s5, isSlugChar c = true ∨ c = '-' := by
    intro c hc
    exact memL c (mem_stripTrailHyphen _ hc)
  have ch5 : List.Chain' (fun a b => a ≠ '-' ∨ b ≠ '-') s5 :=
    chain'_stripTrailHyphen _ chL
  have hd5 : ∀ c ∈ s5.head?, c ≠ '-' := by
    intro c hc
    rw [hs5] at hc
    rcases head?_stripTrailHyphen (stripLeadHyphen s4) with h | h
    · rw [h] at hc
      cases hc
    · rw [h] at hc
      exact hdL c hc
  have lt5 : ∀ c ∈ s5.getLast?, c ≠ '-' := getLast?_stripTrailHyphen _ chL
  -- stage 6: trim is the identity (no whitespace survives)
  have trim5 : jsTrimL s5 = s5 := by
    apply jsTrimL_of_none
    intro c hc
    rcases m5 c hc with h | h
    · exact isSlugChar_not_ws h
    · rw [h]
      exact hyphen_not_ws
  rw [trim5]
  rcases hempty : s5 with _ | ⟨a, as⟩
  · exact Or.inr rfl
  · refine Or.inl (slugPatternL_of (by simp) ?_ ?_ ?_ ?_)
    · exact hempty ▸ m5
    · exact hempty ▸ ch5
    · exact hempty ▸ hd5
    · exact hempty ▸ lt5

/-! ## The key generator is the identity on canonical slugs -/

lemma generateTopicKeyL_id {l : List Char} (h : slugPatternL l = true) :
    generateTopicKeyL l = l := by
  obtain ⟨hmem, hchain, hhead, hlast⟩ := slugPatternL_props h
  unfold generateTopicKeyL stripEdgeHyphens collapseRuns
  rw [map_eq_self_of l ?lower]
  case lower =>
    intro c hc
    rcases hmem c hc with h' | h'
    · exact toLowerAscii_slug h'
    · rw [h']
      exact toLowerAscii_hyphen
  rw [List.filter_eq_self.mpr ?keep]
  case keep =>
    intro c hc
    rcases hmem c hc with h' | h'
    · exact keepChar_slug h'
    · rw [h']
      exact keepChar_hyphen
  rw [collapseRunsAux_of_none l ?nows false]
  case nows =>
    intro c hc
    rcases hmem c hc with h' | h'
    · exact isSlugChar_not_ws h'
    · rw [h']
      exact hyphen_not_ws
  rw [collapseRunsAux_hyphen_id l false hchain (by intro h'; cases h')]
  rw [stripLeadHyphen_of_head hhead]
  rw [stripTrailHyphen_of_getLast l hlast]
  apply jsTrimL_of_none
  intro c hc
  rcases hmem c hc with h' | h'
  · exact isSlugChar_not_ws h'
  · rw [h']
    exact hyphen_not_ws

/-! ## Lemmas: the `Map` model -/

lemma contains_iff {l : List String} {k : String} :
    l.contains k = true ↔ k ∈ l := by
  rw [List.contains_eq_any_beq, List.any_eq_true]
  constructor
  · rintro ⟨x, hx, hk⟩
    exact (beq_iff_eq.mp hk) ▸ hx
  · intro h
    exact ⟨k, h, beq_self_eq_true k⟩

lemma mapHas_eq_isSome (m : TopicIndex) (k : String) :
    mapHas m k = (mapGet m k).isSome := by
  unfold mapHas mapGet
  rw [← Option.map_eq_map, Option.isSome_map]
  by_cases h : (List.find? (fun p => p.1 == k) m).isSome = true
  · rw [h]
    exact List.any_eq_true.mpr (List.find?_isSome.mp h)
  · rw [Bool.not_eq_true] at h
    rw [h, Bool.eq_false_iff]
    intro hany
    have h' := List.find?_isSome.mpr (List.any_eq_true.mp hany)
    rw [h] at h'
    cases h'

lemma find?_key_cons_pos {k : String} (q : String × Topic) (m : List (String × Topic))
    (h : q.1 = k) :
    List.find? (fun p => p.1 == k) (q :: m) = some q := by
  simp [List.find?_cons, h]

lemma find?_key_cons_neg {k : String} (q : String × Topic) (m : List (String × Topic))
    (h : q.1 ≠ k) :
    List.find? (fun p => p.1 == k) (q :: m) = List.find? (fun p => p.1 == k) m := by
  simp [List.find?_cons, beq_eq_false_iff_ne.mpr h]

lemma find?_map_update (m : TopicIndex) (k k' : String) (v : Topic) :
    List.find? (fun p => p.1 == k)
        (m.map (fun p => if p.1 == k' then (k', v) else p)) =
      if k = k' then (if mapHas m k' then some (k', v) else none)
      else List.find? (fun p => p.1 == k) m := by
  induction m with
  | nil => simp [mapHas]
  | cons q m ih =>
    rw [List.map_cons]
    by_cases hq : q.1 = k'
    · rw [if_pos (beq_iff_eq.mpr hq)]
      by_cases hk : k = k'
      · subst hk
        have hhas : mapHas (q :: m) k = true := by
          simp [mapHas, List.any_cons, hq]
        rw [if_pos rfl, if_pos hhas, find?_key_cons_pos (k, v) _ rfl]
      · rw [if_neg hk, find?_key_cons_neg (k', v) _ (Ne.symm hk),
          find?_key_cons_neg q m (by rw [hq]; exact Ne.symm hk), ih, if_neg hk]
    · have hqb : ¬((q.1 == k') = true) := fun hh => hq (beq_iff_eq.mp hh)
      rw [if_neg hqb]
      by_cases hqk : q.1 = k
      · rw [find?_key_cons_pos q _ hqk]
        have hk : ¬ k = k' := fun he => hq (hqk.trans he)
        rw [if_neg hk, find?_key_cons_pos q m hqk]
      · rw [find?_key_cons_neg q _ hqk, ih]
        have hhas : mapHas (q :: m) k' = mapHas m k' := by
          simp [mapHas, List.any_cons, beq_eq_false_iff_ne.mpr hq]
        rw [hhas]
        by_cases hk : k = k'
        · rw [if_pos hk, if_pos hk]
        · rw [if_neg hk, if_neg hk, find?_key_cons_neg q m hqk]

lemma mapGet_mapSet (m : TopicIndex) (k k' : String) (v : Topic) :
    mapGet (mapSet m k' v) k = if k = k' then some v else mapGet m k := by
  by_cases h : mapHas m k' = true
  · unfold mapSet
    rw [if_pos h]
    unfold mapGet
    rw [find?_map_update, h]
    by_cases hk : k = k'
    · rw [if_pos hk, if_pos hk, if_pos rfl]
      rfl
    · rw [if_neg hk, if_neg hk]
  · unfold mapSet
    rw [if_neg h]
    unfold mapGet
    rw [List.find?_append]
    by_cases hk : k = k'
    · subst hk
      have hnone : List.find? (fun p => p.1 == k) m = none := by
        rw [List.find?_eq_none]
        intro x hx hx'
        exact h (List.any_eq_true.mpr ⟨x, hx, hx'⟩)
      rw [hnone, Option.none_or, if_pos rfl, find?_key_cons_pos (k, v) [] rfl]
      rfl
    · rw [if_neg hk, find?_key_cons_neg (k', v) [] (Ne.symm hk), List.find?_nil,
        Option.or_none]

lemma getLast?_cons_or {α : Type} (a : α) (l : List α) :
    (a :: l).getLast? = l.getLast?.or (some a) := by
  rcases l with _ | ⟨b, bs⟩
  · rfl
  · rw [List.getLast?_cons_cons]
    rcases h : (b :: bs).getLast? with _ | x
    · rw [List.getLast?_eq_none_iff] at h
      cases h
    · rfl

lemma mapGet_foldl_insert (ts : List Topic) :
    ∀ (m : TopicIndex) (k : String),
      mapGet (ts.foldl (fun idx t => mapSet idx t.key t) m) k =
        ((ts.filter (fun t => t.key == k)).getLast?).or (mapGet m k) := by
  induction ts with
  | nil =>
    intro m k
    rw [List.foldl_nil, List.filter_nil, List.getLast?_nil, Option.none_or]
  | cons t ts ih =>
    intro m k
    rw [List.foldl_cons, ih, mapGet_mapSet, List.filter_cons]
    by_cases h : t.key = k
    · rw [if_pos (beq_iff_eq.mpr h), if_pos h.symm, getLast?_cons_or, Option.or_assoc]
      rfl
    · rw [if_neg (fun hh : (t.key == k) = true => h (beq_iff_eq.mp hh)),
        if_neg (fun h' : k = t.key => h h'.symm)]

lemma buildTopicIndex_flat (cats : List TopicCategory) :
    buildTopicIndex cats =
      (concatTopics cats).foldl (fun idx t => mapSet idx t.key t) mapEmpty := by
  unfold buildTopicIndex concatTopics
  rw [List.foldl_flatten, List.foldl_map]

lemma mapGet_buildTopicIndex (cats : List TopicCategory) (k : String) :
    mapGet (buildTopicIndex cats) k =
      ((concatTopics cats).filter (fun t => t.key == k)).getLast? := by
  rw [buildTopicIndex_flat, mapGet_foldl_insert]
  have h0 : mapGet mapEmpty k = none := rfl
  rw [h0, Option.or_none]

lemma mapHas_buildTopicIndex_of_mem {cats : List TopicCategory} {t : Topic}
    (h : t ∈ concatTopics cats) : mapHas (buildTopicIndex cats) t.key = true := by
  rw [mapHas_eq_isSome, mapGet_buildTopicIndex]
  have : t ∈ (concatTopics cats).filter (fun u => u.key == t.key) :=
    List.mem_filter.mpr ⟨h, beq_self_eq_true t.key⟩
  rcases hl : ((concatTopics cats).filter (fun u => u.key == t.key)).getLast? with _ | x
  · rw [List.getLast?_eq_none_iff] at hl
    rw [hl] at this
    cases this
  · rw [hl]
    rfl

/-! ## Lemmas: the validator as a linear scan -/

lemma scanErrors_nil (index : CategoryIndex) (seen : List String) :
    scanErrors index seen [] = [] := rfl

lemma scanErrors_cons (index : CategoryIndex) (seen : List String) (t : Topic)
    (ts : List Topic) :
    scanErrors index seen (t :: ts) =
      topicErrors index seen t ++ scanErrors index (seenAdd seen t.key) ts := rfl

lemma scanSeen_cons (seen : List String) (t : Topic) (ts : List Topic) :
    scanSeen seen (t :: ts) = scanSeen (seenAdd seen t.key) ts := rfl

lemma scanSeen_append (seen : List String) (ts ts' : List Topic) :
    scanSeen seen (ts ++ ts') = scanSeen (scanSeen seen ts) ts' := by
  unfold scanSeen
  exact List.foldl_append _ _ ts ts'

lemma scanErrors_append (index : CategoryIndex) :
    ∀ (ts : List Topic) (ts' : List Topic) (seen : List String),
      scanErrors index seen (ts ++ ts') =
        scanErrors index seen ts ++ scanErrors index (scanSeen seen ts) ts' := by
  intro ts
  induction ts with
  | nil => intro ts' seen; rfl
  | cons t ts ih =>
    intro ts' seen
    rw [List.cons_append, scanErrors_cons, scanErrors_cons, ih, scanSeen_cons,
      List.append_assoc]

lemma foldl_validateStep (index : CategoryIndex) :
    ∀ (ts : List Topic) (errs : List ValidationError) (seen : List String),
      ts.foldl (validateStep index) (errs, seen) =
        (errs ++ scanErrors index seen ts, scanSeen seen ts) := by
  intro ts
  induction ts with
  | nil =>
    intro errs seen
    rw [List.foldl_nil, scanErrors_nil, List.append_nil]
    rfl
  | cons t ts ih =>
    intro errs seen
    rw [List.foldl_cons]
    have hstep : validateStep index (errs, seen) t =
        (errs ++ topicErrors index seen t, seenAdd seen t.key) := rfl
    rw [hstep, ih, scanErrors_cons, scanSeen_cons, List.append_assoc]

lemma concatTopics_nil : concatTopics [] = [] := rfl

lemma concatTopics_cons (c : TopicCategory) (cats : List TopicCategory) :
    concatTopics (c :: cats) = c.topics ++ concatTopics cats := by
  unfold concatTopics
  rw [List.map_cons, List.flatten_cons]

lemma foldl_categories (index : CategoryIndex) :
    ∀ (cats : List TopicCategory) (errs : List ValidationError) (seen : List String),
      cats.foldl (fun st category => category.topics.foldl (validateStep index) st)
          (errs, seen) =
        (errs ++ scanErrors index seen (concatTopics cats),
          scanSeen seen (concatTopics cats)) := by
  intro cats
  induction cats with
  | nil =>
    intro errs seen
    rw [List.foldl_nil, concatTopics_nil, scanErrors_nil, List.append_nil]
    rfl
  | cons c cats ih =>
    intro errs seen
    rw [List.foldl_cons, foldl_validateStep, ih, concatTopics_cons,
      scanErrors_append, scanSeen_append, List.append_assoc]

lemma validateTopics_eq_scan (index : CategoryIndex) :
    validateTopics index = scanErrors index [] (concatTopics index.categories) := by
  unfold validateTopics
  rw [foldl_categories, List.nil_append]

/-! ## Lemmas: projecting one diagnostic kind out of the scan -/

lemma filter_topicErrors_dup (index : CategoryIndex) (seen : List String) (t : Topic) :
    (topicErrors index seen t).filter (fun e => e.type == ErrorType.duplicate_key) =
      if seen.contains t.key then [duplicateKeyError t] else [] := by
  unfold topicErrors
  rw [List.filter_append, List.filter_append, List.filter_append]
  have hA : (if seen.contains t.key then [duplicateKeyError t] else []).filter
      (fun e => e.type == ErrorType.duplicate_key) =
      if seen.contains t.key then [duplicateKeyError t] else [] := by
    split <;> rfl
  have hB : (if titleMissing t then [missingTitleError t] else []).filter
      (fun e => e.type == ErrorType.duplicate_key) = [] := by
    split <;> rfl
  have hC : (if contentThin t then [emptyContentError t] else []).filter
      (fun e => e.type == ErrorType.duplicate_key) = [] := by
    split <;> rfl
  have hD : ((t.metadata.prerequisites.filter
        (fun p => !(mapHas index.topicIndex p))).map (invalidPrerequisiteError t)).filter
      (fun e => e.type == ErrorType.duplicate_key) = [] := by
    rw [List.filter_map]
    rw [List.filter_eq_nil_iff.mpr]
    · exact List.map_nil
    · intro a _ h
      exact Bool.noConfusion h
  rw [hA, hB, hC, hD, List.append_nil, List.append_nil, List.append_nil]

lemma filter_topicErrors_empty (index : CategoryIndex) (seen : List String) (t : Topic) :
    (topicErrors index seen t).filter (fun e => e.type == ErrorType.empty_content) =
      if contentThin t then [emptyContentError t] else [] := by
  unfold topicErrors
  rw [List.filter_append, List.filter_append, List.filter_append]
  have hA : (if seen.contains t.key then [duplicateKeyError t] else []).filter
      (fun e => e.type == ErrorType.empty_content) = [] := by
    split <;> rfl
  have hB : (if titleMissing t then [missingTitleError t] else []).filter
      (fun e => e.type == ErrorType.empty_content) = [] := by
    split <;> rfl
  have hC : (if contentThin t then [emptyContentError t] else []).filter
      (fun e => e.type == ErrorType.empty_content) =
      if contentThin t then [emptyContentError t] else [] := by
    split <;> rfl
  have hD : ((t.metadata.prerequisites.filter
        (fun p => !(mapHas index.topicIndex p))).map (invalidPrerequisiteError t)).filter
      (fun e => e.type == ErrorType.empty_content) = [] := by
    rw [List.filter_map]
    rw [List.filter_eq_nil_iff.mpr]
    · exact List.map_nil
    · intro a _ h
      exact Bool.noConfusion h
  rw [hA, hB, hC, hD, List.nil_append, List.nil_append, List.append_nil]

lemma filter_topicErrors_prereq (index : CategoryIndex) (seen : List String) (t : Topic) :
    (topicErrors index seen t).filter (fun e => e.type == ErrorType.invalid_prerequisite) =
      (t.metadata.prerequisites.filter
        (fun p => !(mapHas index.topicIndex p))).map (invalidPrerequisiteError t) := by
  unfold topicErrors
  rw [List.filter_append, List.filter_append, List.filter_append]
  have hA : (if seen.contains t.key then [duplicateKeyError t] else []).filter
      (fun e => e.type == ErrorType.invalid_prerequisite) = [] := by
    split <;> rfl
  have hB : (if titleMissing t then [missingTitleError t] else []).filter
      (fun e => e.type == ErrorType.invalid_prerequisite) = [] := by
    split <;> rfl
  have hC : (if contentThin t then [emptyContentError t] else []).filter
      (fun e => e.type == ErrorType.invalid_prerequisite) = [] := by
    split <;> rfl
  have hD : ((t.metadata.prerequisites.filter
        (fun p => !(mapHas index.topicIndex p))).map (invalidPrerequisiteError t)).filter
      (fun e => e.type == ErrorType.invalid_prerequisite) =
      (t.metadata.prerequisites.filter
        (fun p => !(mapHas index.topicIndex p))).map (invalidPrerequisiteError t) := by
    rw [List.filter_eq_self]
    intro a ha
    rcases List.mem_map.mp ha with ⟨p, _, hp⟩
    rw [← hp]
    rfl
  rw [hA, hB, hC, hD, List.nil_append, List.nil_append, List.nil_append]

lemma scanErrors_filter_empty (index : CategoryIndex) :
    ∀ (ts : List Topic) (seen : List String),
      (scanErrors index seen ts).filter (fun e => e.type == ErrorType.empty_content) =
        (ts.filter contentThin).map emptyContentError := by
  intro ts
  induction ts with
  | nil => intro seen; rfl
  | cons t ts ih =>
    intro seen
    rw [scanErrors_cons, List.filter_append, filter_topicErrors_empty, ih,
      List.filter_cons]
    by_cases h : contentThin t = true
    · rw [if_pos h, if_pos h, List.map_cons, List.singleton_append]
    · rw [if_neg h, if_neg h, List.nil_append]

lemma scanErrors_filter_prereq (index : CategoryIndex) :
    ∀ (ts : List Topic) (seen : List String),
      (scanErrors index seen ts).filter
          (fun e => e.type == ErrorType.invalid_prerequisite) =
        (ts.map (fun t => (t.metadata.prerequisites.filter
          (fun p => !(mapHas index.topicIndex p))).map (invalidPrerequisiteError t))).flatten := by
  intro ts
  induction ts with
  | nil => intro seen; rfl
  | cons t ts ih =>
    intro seen
    rw [scanErrors_cons, List.filter_append, filter_topicErrors_prereq, ih,
      List.map_cons, List.flatten_cons]

lemma seenAdd_invariant {seen : List String} {pre : List Topic} {t : Topic}
    (hinv : ∀ k, seen.contains k = pre.any (fun u => u.key == k)) :
    ∀ k, (seenAdd seen t.key).contains k = (pre ++ [t]).any (fun u => u.key == k) := by
  intro k
  have hany : (pre ++ [t]).any (fun u => u.key == k) =
      (pre.any (fun u => u.key == k) || (t.key == k)) := by
    rw [List.any_append, List.any_cons, List.any_nil, Bool.or_false]
  rw [hany, ← hinv k]
  unfold seenAdd
  by_cases h : seen.contains t.key = true
  · rw [if_pos h]
    by_cases hk : t.key = k
    · rw [← hk, h]
      rfl
    · rw [beq_eq_false_iff_ne.mpr hk, Bool.or_false]
  · rw [if_neg h]
    rw [List.contains_eq_any_beq, List.any_append, List.any_cons, List.any_nil,
      Bool.or_false, ← List.contains_eq_any_beq]
    by_cases hk : t.key = k
    · rw [hk]
    · rw [beq_eq_false_iff_ne.mpr hk,
        beq_eq_false_iff_ne.mpr (fun h' => hk h'.symm)]

lemma subsequentDuplicates_cons (pre : List Topic) (t : Topic) (ts : List Topic) :
    subsequentDuplicates pre (t :: ts) =
      (if pre.any (fun u => u.key == t.key) then [t] else []) ++
        subsequentDuplicates (pre ++ [t]) ts := rfl

lemma scanErrors_filter_dup (index : CategoryIndex) :
    ∀ (ts : List Topic) (seen : List String) (pre : List Topic),
      (∀ k, seen.contains k = pre.any (fun u => u.key == k)) →
      (scanErrors index seen ts).filter (fun e => e.type == ErrorType.duplicate_key) =
        (subsequentDuplicates pre ts).map duplicateKeyError := by
  intro ts
  induction ts with
  | nil => intro seen pre _; rfl
  | cons t ts ih =>
    intro seen pre hinv
    rw [scanErrors_cons, List.filter_append, filter_topicErrors_dup,
      ih (seenAdd seen t.key) (pre ++ [t]) (seenAdd_invariant hinv),
      subsequentDuplicates_cons, List.map_append, hinv t.key]
    by_cases h : pre.any (fun u => u.key == t.key) = true
    · rw [if_pos h, if_pos h, List.map_cons, List.map_nil]
    · rw [if_neg h, if_neg h, List.map_nil]

/-! ## Lemmas: the thin-content condition -/

lemma length_dropWhile_le {p : Char → Bool} :
    ∀ (l : List Char), (l.dropWhile p).length ≤ l.length := by
  intro l
  induction l with
  | nil => exact Nat.le_refl 0
  | cons a as ih =>
    rw [List.dropWhile_cons]
    split
    · exact Nat.le_succ_of_le ih
    · exact Nat.le_refl _

lemma jsTrim_length_le (s : String) : (jsTrim s).length ≤ s.length := by
  show (jsTrimL s.data).length ≤ s.data.length
  unfold jsTrimL
  calc ((s.data.dropWhile isJsWs).reverse.dropWhile isJsWs).reverse.length
      = ((s.data.dropWhile isJsWs).reverse.dropWhile isJsWs).length :=
        List.length_reverse _
    _ ≤ (s.data.dropWhile isJsWs).reverse.length := length_dropWhile_le _
    _ = (s.data.dropWhile isJsWs).length := List.length_reverse _
    _ ≤ s.data.length := length_dropWhile_le _

/-- The code's guard `!content || content.trim().length < 50` is
equivalent to the spec's "trimmed content shorter than 50": an empty
content trims to length `0 < 50`, so the first disjunct is absorbed. -/
lemma contentThin_iff (t : Topic) :
    contentThin t = decide ((jsTrim t.content).length < 50) := by
  unfold contentThin
  by_cases h : t.content = ""
  · rw [h]
    rfl
  · rw [beq_eq_false_iff_ne.mpr h, Bool.false_or]

lemma contentThin_of_empty (t : Topic) (h : t.content = "") : contentThin t = true := by
  unfold contentThin
  rw [h]
  rfl

lemma contentThin_of_len49 (t : Topic) (h : t.content.length = 49) :
    contentThin t = true := by
  rw [contentThin_iff]
  have hle := jsTrim_length_le t.content
  rw [h] at hle
  simp only [decide_eq_true_eq]
  omega

lemma contentThin_of_len50_noWs (t : Topic) (h : t.content.length = 50)
    (hws : ∀ c ∈ t.content.data, isJsWs c = false) : contentThin t = false := by
  rw [contentThin_iff]
  have hid : jsTrim t.content = t.content := by
    show String.mk (jsTrimL t.content.data) = t.content
    rw [jsTrimL_of_none hws]
  rw [hid, h]
  rfl

/-! ## The ten claims -/

/-- **C1** (corrected; counterexample): the end-to-end scenario as the
spec states it — `topicIndex.get("x")` the second topic, one
`duplicate_key` and **zero** `empty_content` diagnostics — is false for
the scenario input: the validator scans `index.categories`, so the first,
short-content `"X"` topic is still checked and flagged `empty_content`. -/
theorem claim_C1_counterexample :
    ¬ (mapGet scenarioIndex.topicIndex "x" = some topicLong ∧
      ((validateTopics scenarioIndex).filter
        (fun e => e.type == ErrorType.duplicate_key)).length = 1 ∧
      ((validateTopics scenarioIndex).filter
        (fun e => e.type == ErrorType.empty_content)).length = 0) := by
  intro h
  have h2 := h.2.2
  have : ((validateTopics scenarioIndex).filter
      (fun e => e.type == ErrorType.empty_content)).length = 1 := by decide
  rw [this] at h2
  cases h2

/-- **C1** (amended): for the scenario input, `topicIndex.get("x")` is the
second (long) topic, validation yields exactly one `duplicate_key`
diagnostic, and exactly one `empty_content` diagnostic — flagging the
first, short-content topic. -/
theorem claim_C1 :
    mapGet scenarioIndex.topicIndex "x" = some topicLong ∧
    ((validateTopics scenarioIndex).filter
      (fun e => e.type == ErrorType.duplicate_key)).length = 1 ∧
    (validateTopics scenarioIndex).filter
      (fun e => e.type == ErrorType.empty_content) = [emptyContentError topicShort] := by
  refine ⟨by decide, by decide, by decide⟩

/-- **C2**: the last topic encountered with a given key wins in
`topicIndex` — in general, `get k` is the last element of the scan with
key `k` — and in the positional form: if topics `t₁` (at position `i`)
and `t₂` (at position `j > i`) share key `k` and no topic after `t₂` has
key `k`, then `get k = t₂`; meanwhile `categories` retains every topic,
shadowed ones included, unchanged. -/
theorem claim_C2 :
    (∀ (cats : List TopicCategory) (k : String),
      mapGet (createCategoryIndex cats).topicIndex k =
        ((concatTopics cats).filter (fun t => t.key == k)).getLast?) ∧
    (∀ (cats : List TopicCategory) (k : String) (l₁ l₂ l₃ : List Topic) (t₁ t₂ : Topic),
      concatTopics cats = l₁ ++ t₁ :: (l₂ ++ t₂ :: l₃) →
      t₁.key = k → t₂.key = k →
      (∀ t ∈ l₂, t.key ≠ k) → (∀ t ∈ l₃, t.key ≠ k) →
      mapGet (createCategoryIndex cats).topicIndex k = some t₂ ∧
        (createCategoryIndex cats).categories = cats) := by
  have hgen : ∀ (cats : List TopicCategory) (k : String),
      mapGet (createCategoryIndex cats).topicIndex k =
        ((concatTopics cats).filter (fun t => t.key == k)).getLast? :=
    fun cats k => mapGet_buildTopicIndex cats k
  refine ⟨hgen, ?_⟩
  intro cats k l₁ l₂ l₃ t₁ t₂ hsplit h1 h2 hl2 hl3
  refine ⟨?_, rfl⟩
  rw [hgen, hsplit, List.filter_append, List.filter_cons, if_pos (beq_iff_eq.mpr h1),
    List.filter_append, List.filter_cons, if_pos (beq_iff_eq.mpr h2),
    List.filter_eq_nil_iff.mpr (fun t ht h' => hl2 t ht (beq_iff_eq.mp h')),
    List.filter_eq_nil_iff.mpr (fun t ht h' => hl3 t ht (beq_iff_eq.mp h')),
    List.nil_append, List.getLast?_append_cons, List.getLast?_cons_cons,
    List.getLast?_singleton]

/-- **C2** witness: in the two-topic scenario the index maps `"x"` to the
second topic while both topics survive in `categories`. -/
theorem claim_C2_witness :
    mapGet (createCategoryIndex scenarioCategories).topicIndex "x" = some topicLong ∧
      (createCategoryIndex scenarioCategories).categories = scenarioCategories :=
  claim_C2.2 scenarioCategories "x" [] [] [] topicShort topicLong rfl rfl rfl
    (fun t ht => absurd ht (List.not_mem_nil t))
    (fun t ht => absurd ht (List.not_mem_nil t))

/-- **C3**: the validator's `duplicate_key` diagnostics are exactly one
per occurrence whose key already appeared strictly earlier in the scan
(first occurrence clean, every later occurrence flagged); in particular an
index holding exactly two topics with the same key yields exactly one
diagnostic, for the second occurrence. -/
theorem claim_C3 :
    (∀ (index : CategoryIndex),
      (validateTopics index).filter (fun e => e.type == ErrorType.duplicate_key) =
        (subsequentDuplicates [] (concatTopics index.categories)).map duplicateKeyError) ∧
    (∀ (ctitle : String) (t₁ t₂ : Topic), t₁.key = t₂.key →
      (validateTopics (createCategoryIndex [⟨ctitle, [t₁, t₂]⟩])).filter
          (fun e => e.type == ErrorType.duplicate_key) = [duplicateKeyError t₂]) := by
  have hgen : ∀ (index : CategoryIndex),
      (validateTopics index).filter (fun e => e.type == ErrorType.duplicate_key) =
        (subsequentDuplicates [] (concatTopics index.categories)).map duplicateKeyError := by
    intro index
    rw [validateTopics_eq_scan]
    exact scanErrors_filter_dup index _ [] [] (fun k => rfl)
  refine ⟨hgen, ?_⟩
  intro ctitle t₁ t₂ hk
  rw [hgen]
  have hcat : concatTopics (createCategoryIndex [⟨ctitle, [t₁, t₂]⟩]).categories =
      [t₁, t₂] := by
    show concatTopics [⟨ctitle, [t₁, t₂]⟩] = [t₁, t₂]
    rw [concatTopics_cons, concatTopics_nil, List.append_nil]
  rw [hcat, subsequentDuplicates_cons, subsequentDuplicates_cons, List.nil_append]
  have h1 : ([t₁].any (fun u => u.key == t₂.key)) = true := by
    rw [List.any_cons, List.any_nil, Bool.or_false]
    exact beq_iff_eq.mpr hk
  rw [if_neg (fun hh : (([] : List Topic).any (fun u => u.key == t₁.key)) = true =>
      Bool.noConfusion hh),
    if_pos h1]
  rfl

/-- **C3** witness: the two `"x"` topics of the scenario produce exactly
one `duplicate_key` diagnostic, for the second topic. -/
theorem claim_C3_witness :
    (validateTopics (createCategoryIndex [⟨"dup", [topicShort, topicLong]⟩])).filter
        (fun e => e.type == ErrorType.duplicate_key) = [duplicateKeyError topicLong] :=
  claim_C3.2 "dup" topicShort topicLong rfl

/-- **C4**: `getTopicsByTag` returns exactly the topics of the index
whose tag list contains the tag, and `getTopicsByDifficulty` exactly
those with the given difficulty, regardless of category. -/
theorem claim_C4 :
    ∀ (index : TopicIndex) (tag : String) (d : Difficulty) (t : Topic),
      (t ∈ getTopicsByTag index tag ↔
        t ∈ mapValues index ∧ t.metadata.tags.contains tag = true) ∧
      (t ∈ getTopicsByDifficulty index d ↔
        t ∈ mapValues index ∧ t.metadata.difficulty = d) := by
  intro index tag d t
  constructor
  · unfold getTopicsByTag
    rw [List.mem_filter]
  · unfold getTopicsByDifficulty
    rw [List.mem_filter]
    constructor
    · rintro ⟨h1, h2⟩
      exact ⟨h1, by simpa using h2⟩
    · rintro ⟨h1, h2⟩
      exact ⟨h1, by simpa using h2⟩

/-- **C5**: the key generator is idempotent —
`slugify(slugify(s)) = slugify(s)` for every string. -/
theorem claim_C5 :
    ∀ (s : String), generateTopicKey (generateTopicKey s) = generateTopicKey s := by
  intro s
  show String.mk (generateTopicKeyL (generateTopicKeyL s.data)) =
    String.mk (generateTopicKeyL s.data)
  rcases generateTopicKeyL_canonical s.data with h | h
  · exact congrArg String.mk (generateTopicKeyL_id h)
  · rw [h]
    rfl

/-- **C6**: every output of the key generator matches
`^[a-z0-9]+(-[a-z0-9]+)*$` or is the empty string. -/
theorem claim_C6 :
    ∀ (s : String), slugPattern (generateTopicKey s) = true ∨ generateTopicKey s = "" := by
  intro s
  rcases generateTopicKeyL_canonical s.data with h | h
  · exact Or.inl h
  · refine Or.inr ?_
    show String.mk (generateTopicKeyL s.data) = ""
    rw [h]

/-- **C7**: a topic is flagged `empty_content` exactly when its trimmed
content is shorter than 50 characters — the validator's `empty_content`
diagnostics are exactly one per such topic; empty content and 49-character
content are flagged, exactly 50 non-whitespace characters are not. -/
theorem claim_C7 :
    (∀ (index : CategoryIndex),
      (validateTopics index).filter (fun e => e.type == ErrorType.empty_content) =
        ((concatTopics index.categories).filter
          (fun t => decide ((jsTrim t.content).length < 50))).map emptyContentError) ∧
    (∀ (t : Topic), t.content = "" → contentThin t = true) ∧
    (∀ (t : Topic), t.content.length = 49 → contentThin t = true) ∧
    (∀ (t : Topic), t.content.length = 50 →
      (∀ c ∈ t.content.data, isJsWs c = false) → contentThin t = false) := by
  refine ⟨?_, contentThin_of_empty, contentThin_of_len49, contentThin_of_len50_noWs⟩
  intro index
  rw [validateTopics_eq_scan, scanErrors_filter_empty,
    List.filter_congr (fun t _ => contentThin_iff t)]

/-- **C7** witness: a 49-character content is flagged and a 50-character
non-whitespace content is not. -/
theorem claim_C7_witness :
    contentThin topic49 = true ∧ contentThin topic50 = false :=
  ⟨claim_C7.2.2.1 topic49 (by decide),
    claim_C7.2.2.2 topic50 (by decide) (by decide)⟩

/-- **C8**: the validator's `invalid_prerequisite` diagnostics are exactly
one per prerequisite entry absent from `index.topicIndex`, per topic, in
scan order; an entry present in the index produces none. -/
theorem claim_C8 :
    ∀ (index : CategoryIndex),
      (validateTopics index).filter (fun e => e.type == ErrorType.invalid_prerequisite) =
        ((concatTopics index.categories).map
          (fun t => (t.metadata.prerequisites.filter
            (fun p => !(mapHas index.topicIndex p))).map (invalidPrerequisiteError t))).flatten := by
  intro index
  rw [validateTopics_eq_scan, scanErrors_filter_prereq]

/-- **C9**: validation defects are never fatal — `assertValidTopics`
returns normally (`Except.ok`) for every index and dev-mode flag, and
`validateTopics` accumulates diagnostics over the full scan of every
topic (equal to the structural scan `scanErrors`, which visits each topic
and appends its diagnostics, never halting early). -/
theorem claim_C9 :
    (∀ (dev : Bool) (index : CategoryIndex),
      assertValidTopics dev index = Except.ok ()) ∧
    (∀ (index : CategoryIndex),
      validateTopics index = scanErrors index [] (concatTopics index.categories)) := by
  constructor
  · intro dev index
    unfold assertValidTopics
    by_cases hdev : dev = true
    · rw [if_pos hdev]
      show (if (validateTopics index).length > 0 then
        Except.ok () else Except.ok ()) = (Except.ok () : Except String Unit)
      exact ite_self _
    · rw [if_neg hdev]
  · exact validateTopics_eq_scan

/-- **C10**: a topic appearing in the built index always finds its own key
in `topicIndex`, so a self-referencing prerequisite entry is never among
the entries the prerequisite check flags. -/
theorem claim_C10 :
    ∀ (cats : List TopicCategory) (t : Topic),
      t ∈ concatTopics cats →
      t.key ∈ t.metadata.prerequisites →
      mapHas (createCategoryIndex cats).topicIndex t.key = true ∧
        t.key ∉ t.metadata.prerequisites.filter
          (fun p => !(mapHas (createCategoryIndex cats).topicIndex p)) := by
  intro cats t hmem _
  have hhas : mapHas (createCategoryIndex cats).topicIndex t.key = true :=
    mapHas_buildTopicIndex_of_mem hmem
  refine ⟨hhas, ?_⟩
  intro hcontra
  have := (List.mem_filter.mp hcontra).2
  rw [hhas] at this
  cases this

/-- **C10** witness: a topic listing its own key as prerequisite resolves
against the index built from its own category. -/
theorem claim_C10_witness :
    mapHas (createCategoryIndex [⟨"S", [topicSelf]⟩]).topicIndex topicSelf.key = true ∧
      topicSelf.key ∉ topicSelf.metadata.prerequisites.filter
        (fun p => !(mapHas (createCategoryIndex [⟨"S", [topicSelf]⟩]).topicIndex p)) :=
  claim_C10 [⟨"S", [topicSelf]⟩] topicSelf (by decide) (by decide)

end CheatSheet
